import Mathlib

/-!
Verification of the blitz-capital-simulator simulation engine.

The definitions below are a shallow embedding of the engine found in
`src/backend/simulators/historical.py` and `src/backend/simulators/realtime.py`
(with the data model of `src/backend/models/portfolio.py`).  Real-valued
quantities (cash, prices, position quantities) are modelled by `ℚ`;
timestamps by `ℕ` (one unit = one hour, the replay step of the historical
driver); symbols by `String`.  Python dicts keyed by symbol are modelled by
association lists in insertion order, which preserves the observable
behaviour of the code (key presence, iteration order, single-key update).

`_execute_trade`, `_update_portfolio_value`, `get_performance_metrics`'s
guards and `_is_winning_trade` are character-for-character identical in the
two simulator files; each is embedded once.
-/

namespace BlitzSim

/-- The `action` field of a strategy signal (`'buy'` / `'sell'` / `'hold'`). -/
inductive Action where
  | buy
  | sell
  | hold
deriving DecidableEq, Repr

/-- A strategy signal for one symbol: `{action, quantity}` as consumed by
`_execute_trade`. -/
structure Signal where
  action : Action
  quantity : ℚ
deriving DecidableEq, Repr

/-- A ledger entry, from `models/portfolio.py` (`Trade`).  The `side` is the
literal string stored by the code; `value` is the notional recorded at fill
time.  The `algorithm` and `commission` fields carry no engine logic and are
omitted. -/
structure Trade where
  timestamp : ℕ
  symbol : String
  side : String
  quantity : ℚ
  price : ℚ
  value : ℚ
deriving DecidableEq, Repr

/-- Position lookup: Python `positions.get(symbol, 0)` /
`positions[symbol]`. -/
def getPosition : List (String × ℚ) → String → ℚ
  | [], _ => 0
  | p :: ps, sym => if p.1 = sym then p.2 else getPosition ps sym

/-- Key-presence test: Python `symbol in positions`. -/
def hasPosition : List (String × ℚ) → String → Bool
  | [], _ => false
  | p :: ps, sym => p.1 = sym || hasPosition ps sym

/-- Single-key dict update: Python `positions[symbol] = q` (updates the
existing entry, or appends a new one like dict insertion). -/
def setPosition : List (String × ℚ) → String → ℚ → List (String × ℚ)
  | [], sym, q => [(sym, q)]
  | p :: ps, sym, q => if p.1 = sym then (sym, q) :: ps else p :: setPosition ps sym q

/-- Price lookup in a `symbol → price` mapping (Python
`current_prices[symbol]` guarded by `symbol in current_prices`). -/
def priceOf : List (String × ℚ) → String → Option ℚ
  | [], _ => none
  | p :: ps, sym => if p.1 = sym then some p.2 else priceOf ps sym

/-- The mutable engine state owned by one simulator instance: the
`Portfolio` fields the engine actually mutates (`cash`, `positions`,
`total_value`), the performance-tracking fields (`peak_value`,
`max_drawdown`) and the trade ledger (`self.trades`).  The `unrealized_pnl`
and `realized_pnl` fields are carried by the code but never recomputed, so
they are not part of the state. -/
structure SimState where
  cash : ℚ
  positions : List (String × ℚ)
  total_value : ℚ
  peak : ℚ
  max_dd : ℚ
  trades : List Trade
deriving DecidableEq, Repr

/-- Constructor state of both simulators: `cash = total_value = peak_value =
initial_capital`, empty positions, `max_drawdown = 0`, empty ledger. -/
def initState (C : ℚ) : SimState :=
  { cash := C, positions := [], total_value := C, peak := C, max_dd := 0, trades := [] }

/-- `_execute_trade` (identical in `historical.py` and `realtime.py`):
a buy executes `min(requested, cash / price)` and is gated by
`cost <= available_cash`; a sell executes `min(requested, held)` and is
gated by `quantity > 0`.  The buy branch replays Python's
`if symbol not in positions: positions[symbol] = 0` followed by
`positions[symbol] += quantity` as a single-key update to
`old + quantity`, which inserts the key when absent exactly as the code
does. -/
def executeTrade (st : SimState) (sym : String) (sig : Signal) (price : ℚ) (ts : ℕ) :
    SimState :=
  if sig.action = Action.buy ∧ 0 < sig.quantity then
    let available_cash := st.cash
    let max_quantity := available_cash / price
    let quantity := min sig.quantity max_quantity
    let cost := quantity * price
    if cost ≤ available_cash then
      { st with
        cash := st.cash - cost,
        positions := setPosition st.positions sym (getPosition st.positions sym + quantity),
        trades := st.trades ++ [⟨ts, sym, "buy", quantity, price, cost⟩] }
    else st
  else if sig.action = Action.sell ∧ 0 < sig.quantity then
    let available_quantity := getPosition st.positions sym
    let quantity := min sig.quantity available_quantity
    if 0 < quantity then
      let proceeds := quantity * price
      { st with
        cash := st.cash + proceeds,
        positions := setPosition st.positions sym (getPosition st.positions sym - quantity),
        trades := st.trades ++ [⟨ts, sym, "sell", quantity, price, proceeds⟩] }
    else st
  else st

/-- One execution request handed to the Execution Unit: a signal for one
symbol at one fill price and timestamp. -/
structure ExecRequest where
  symbol : String
  signal : Signal
  price : ℚ
  timestamp : ℕ

/-- A sequence of executions against the portfolio. -/
def execAll (st : SimState) (reqs : List ExecRequest) : SimState :=
  reqs.foldl (fun s r => executeTrade s r.symbol r.signal r.price r.timestamp) st

theorem getPosition_setPosition_self (ps : List (String × ℚ)) (sym : String) (q : ℚ) :
    getPosition (setPosition ps sym q) sym = q := by
  induction ps with
  | nil => simp [setPosition, getPosition]
  | cons p ps ih =>
    by_cases h : p.1 = sym
    · simp [setPosition, getPosition, h]
    · simp [setPosition, getPosition, h, ih]

theorem getPosition_setPosition_ne (ps : List (String × ℚ)) (sym s : String) (q : ℚ)
    (h : s ≠ sym) : getPosition (setPosition ps sym q) s = getPosition ps s := by
  have h' : sym ≠ s := h.symm
  induction ps with
  | nil => simp [setPosition, getPosition, h']
  | cons p ps ih =>
    by_cases hp : p.1 = sym
    · simp [setPosition, getPosition, hp, h']
    · simp [setPosition, getPosition, hp, ih]

/-- Single-step preservation of the two portfolio invariants: with a
positive fill price, one `_execute_trade` keeps cash and every held
quantity non-negative. -/
theorem executeTrade_inv (st : SimState) (sym : String) (sig : Signal) (price : ℚ)
    (ts : ℕ) (hp : 0 < price) (hc : 0 ≤ st.cash)
    (hpos : ∀ s, 0 ≤ getPosition st.positions s) :
    0 ≤ (executeTrade st sym sig price ts).cash ∧
      ∀ s, 0 ≤ getPosition (executeTrade st sym sig price ts).positions s := by
  unfold executeTrade
  by_cases hbuy : sig.action = Action.buy ∧ 0 < sig.quantity
  · simp only [hbuy, if_true]
    have hqty : 0 ≤ min sig.quantity (st.cash / price) :=
      le_min (le_of_lt hbuy.2) (div_nonneg hc hp.le)
    have hcost : min sig.quantity (st.cash / price) * price ≤ st.cash := by
      calc min sig.quantity (st.cash / price) * price
          ≤ (st.cash / price) * price :=
            mul_le_mul_of_nonneg_right (min_le_right _ _) hp.le
        _ = st.cash := div_mul_cancel₀ st.cash (ne_of_gt hp)
    by_cases hgate : min sig.quantity (st.cash / price) * price ≤ st.cash
    · simp only [hgate, if_true]
      refine ⟨sub_nonneg.mpr hgate, fun s => ?_⟩
      by_cases hs : s = sym
      · subst hs
        simpa [getPosition_setPosition_self] using add_nonneg (hpos s) hqty
      · simpa [getPosition_setPosition_ne _ _ _ _ hs] using hpos s
    · simp only [hgate, if_false]
      exact ⟨hc, hpos⟩
  · simp only [hbuy, if_false]
    by_cases hsell : sig.action = Action.sell ∧ 0 < sig.quantity
    · simp only [hsell, if_true]
      by_cases hq : 0 < min sig.quantity (getPosition st.positions sym)
      · simp only [hq, if_true]
        refine ⟨add_nonneg hc (mul_nonneg hq.le hp.le), fun s => ?_⟩
        by_cases hs : s = sym
        · subst hs
          simp [getPosition_setPosition_self]
        · simpa [getPosition_setPosition_ne _ _ _ _ hs] using hpos s
      · simp only [hq, if_false]
        exact ⟨hc, hpos⟩
    · simp only [hsell, if_false]
      exact ⟨hc, hpos⟩

/-- The two invariants are preserved by any execution sequence with
positive fill prices. -/
theorem execAll_inv (reqs : List ExecRequest) :
    ∀ st : SimState, (∀ r ∈ reqs, 0 < r.price) → 0 ≤ st.cash →
      (∀ s, 0 ≤ getPosition st.positions s) →
      0 ≤ (execAll st reqs).cash ∧
        ∀ s, 0 ≤ getPosition (execAll st reqs).positions s := by
  induction reqs with
  | nil => exact fun st _ hc hpos => ⟨hc, hpos⟩
  | cons r rs ih =>
    intro st hp hc hpos
    have hstep := executeTrade_inv st r.symbol r.signal r.price r.timestamp
      (hp r (List.mem_cons_self r rs)) hc hpos
    exact ih _ (fun q hq => hp q (List.mem_cons_of_mem r hq)) hstep.1 hstep.2

/-- Claim C1: for every sequence of buy/sell/hold signals executed by the
Execution Unit (any symbols, any positive fill prices), the portfolio's
cash is never negative after any execution: starting from a non-negative
initial capital, after any prefix of the sequence the cash is `≥ 0`. -/
theorem cash_never_negative (C : ℚ) (hC : 0 ≤ C) (reqs : List ExecRequest)
    (hp : ∀ r ∈ reqs, 0 < r.price) :
    ∀ n : ℕ, 0 ≤ (execAll (initState C) (reqs.take n)).cash := by
  intro n
  refine (execAll_inv (reqs.take n) (initState C)
    (fun r hr => hp r (List.take_subset n reqs hr)) hC ?_).1
  intro s
  simp [initState, getPosition]

/-- Witness for `cash_never_negative`: a buy of 3 units at price 7 from
capital 100, checked after the first execution. -/
theorem cash_never_negative_witness :
    0 ≤ (execAll (initState 100)
      (List.take 1 [⟨"A", ⟨Action.buy, 3⟩, 7, 0⟩])).cash :=
  cash_never_negative 100 (by norm_num) [⟨"A", ⟨Action.buy, 3⟩, 7, 0⟩] (by
    intro r hr
    simp only [List.mem_singleton] at hr
    subst hr
    norm_num) 1

/-- Claim C2: for every sequence of executed signals (positive fill
prices), the held quantity of every symbol is never negative after any
prefix; moreover a sell signal for a symbol with zero held quantity is a
complete no-op (no trade appended, cash and positions unchanged). -/
theorem positions_never_negative (C : ℚ) (hC : 0 ≤ C) (reqs : List ExecRequest)
    (hp : ∀ r ∈ reqs, 0 < r.price) :
    (∀ (n : ℕ) (s : String),
        0 ≤ getPosition (execAll (initState C) (reqs.take n)).positions s) ∧
      ∀ (st : SimState) (sym : String) (q price : ℚ) (ts : ℕ),
        getPosition st.positions sym = 0 →
        executeTrade st sym ⟨Action.sell, q⟩ price ts = st := by
  constructor
  · intro n s
    exact (execAll_inv (reqs.take n) (initState C)
      (fun r hr => hp r (List.take_subset n reqs hr)) hC
      (by intro s; simp [initState, getPosition])).2 s
  · intro st sym q price ts hzero
    unfold executeTrade
    by_cases hq : 0 < q
    · simp [hzero, min_eq_right hq.le, hq]
    · simp [hq]

/-- Witness for `positions_never_negative`: a sell request against capital
100, checked after the first execution, plus a zero-held sell no-op. -/
theorem positions_never_negative_witness :
    0 ≤ getPosition (execAll (initState 100)
        (List.take 1 [⟨"A", ⟨Action.sell, 2⟩, 5, 0⟩])).positions "A" ∧
      executeTrade (initState 100) "B" ⟨Action.sell, 2⟩ 5 0 = initState 100 := by
  constructor
  · exact (positions_never_negative 100 (by norm_num)
      [⟨"A", ⟨Action.sell, 2⟩, 5, 0⟩] (by
      intro r hr
      simp only [List.mem_singleton] at hr
      subst hr
      norm_num)).1 1 "A"
  · exact (positions_never_negative 100 (by norm_num) ([] : List ExecRequest)
      (by intro r hr; cases hr)).2 _ _ _ _ _ (by simp [initState, getPosition])

/-- The mark-to-market sum of `_update_portfolio_value` (identical in both
simulators): start from cash and add `quantity * price` for every held
position whose symbol is present in `current_prices`; positions without a
current price add nothing. -/
def markValue (st : SimState) (prices : List (String × ℚ)) : ℚ :=
  st.positions.foldl (fun acc p =>
    match priceOf prices p.1 with
    | some pr => acc + p.2 * pr
    | none => acc) st.cash

/-- `_update_portfolio_value`: recompute `total_value`, raise the running
peak (`if total_value > peak_value`), and raise `max_drawdown` to the
current drawdown `(peak - total_value) / peak` when it exceeds the retained
maximum. -/
def updatePortfolioValue (st : SimState) (prices : List (String × ℚ)) : SimState :=
  let total_value := markValue st prices
  let peak := max st.peak total_value
  { st with
    total_value := total_value
    peak := peak
    max_dd := max st.max_dd ((peak - total_value) / peak) }

theorem updatePortfolioValue_total_value (st : SimState) (ps : List (String × ℚ)) :
    (updatePortfolioValue st ps).total_value = markValue st ps := rfl

theorem updatePortfolioValue_peak (st : SimState) (ps : List (String × ℚ)) :
    (updatePortfolioValue st ps).peak = max st.peak (markValue st ps) := rfl

theorem updatePortfolioValue_max_dd (st : SimState) (ps : List (String × ℚ)) :
    (updatePortfolioValue st ps).max_dd
      = max st.max_dd
          ((max st.peak (markValue st ps) - markValue st ps)
            / max st.peak (markValue st ps)) := rfl

theorem updatePortfolioValue_cash (st : SimState) (ps : List (String × ℚ)) :
    (updatePortfolioValue st ps).cash = st.cash := rfl

theorem updatePortfolioValue_positions (st : SimState) (ps : List (String × ℚ)) :
    (updatePortfolioValue st ps).positions = st.positions := rfl

/-- The valuation total stated in the spec's own terms: the sum, over held
positions whose symbol has a current price, of `quantity × price`. -/
def pricedValueSum (positions prices : List (String × ℚ)) : ℚ :=
  (positions.filterMap (fun p => (priceOf prices p.1).map (fun pr => p.2 * pr))).sum

theorem markValue_eq_sum (st : SimState) (prices : List (String × ℚ)) :
    markValue st prices = st.cash + pricedValueSum st.positions prices := by
  unfold markValue pricedValueSum
  generalize st.positions = ps
  generalize st.cash = acc
  induction ps generalizing acc with
  | nil => simp
  | cons p ps ih =>
    cases h : priceOf prices p.1 with
    | none => simp [List.foldl_cons, List.filterMap_cons, h, ih]
    | some pr => simp [List.foldl_cons, List.filterMap_cons, h, ih, add_assoc]

/-- Claim C3 (amended): after the valuation step with a price mapping
`current_prices`, `total_value` equals cash plus the sum over held
positions of `quantity × current price` for exactly the symbols present in
`current_prices`; positions without a current price contribute nothing to
the valuation (they are dropped, not carried forward). -/
theorem valuation_sums_priced_positions (st : SimState) (prices : List (String × ℚ)) :
    (updatePortfolioValue st prices).total_value
      = st.cash + pricedValueSum st.positions prices :=
  markValue_eq_sum st prices

/-- Claim C3, counterexample to the stated carry-forward policy.  From
capital 150, buy 5 units of "A" at price 10 (cash 100, 5 held), mark with
price 10 (`total_value = 150`, "A" contributes 50), then mark with an empty
price mapping.  The code values the portfolio at 100 — the held position's
last contribution of `5 × 10 = 50` is dropped, not carried forward, so the
claimed `total_value = cash + 50 = 150` is false. -/
theorem valuation_carry_forward_refuted :
    (updatePortfolioValue (updatePortfolioValue
        (executeTrade (initState 150) "A" ⟨Action.buy, 5⟩ 10 0) [("A", 10)]) []).total_value
        = 100 ∧
      (updatePortfolioValue (updatePortfolioValue
        (executeTrade (initState 150) "A" ⟨Action.buy, 5⟩ 10 0) [("A", 10)]) []).cash
        = 100 ∧
      getPosition (updatePortfolioValue (updatePortfolioValue
        (executeTrade (initState 150) "A" ⟨Action.buy, 5⟩ 10 0) [("A", 10)]) []).positions "A"
        = 5 ∧
      (updatePortfolioValue
        (executeTrade (initState 150) "A" ⟨Action.buy, 5⟩ 10 0) [("A", 10)]).total_value
        = 150 ∧
      ¬ (updatePortfolioValue (updatePortfolioValue
        (executeTrade (initState 150) "A" ⟨Action.buy, 5⟩ 10 0) [("A", 10)]) []).total_value
        = 100 + 5 * 10 := by
  norm_num [executeTrade, initState, updatePortfolioValue, markValue, priceOf,
    getPosition, setPosition, min_def]

/-- Claim C10, the code evaluated at the failing input: a buy signal with
`requested_quantity = 5` at price 10 against zero cash has executable
quantity `min(5, 0/10) = 0` and cost 0, yet `cost <= available_cash`
(0 ≤ 0) lets the buy branch run: a zero-quantity `buy` Trade is appended to
the ledger and a zero position entry is inserted for the symbol, where the
claim (and spec §4.2) say no trade is recorded and the portfolio is
untouched.  (The sell branch guards `quantity > 0`; the buy branch lacks
the analogous guard.) -/
theorem zero_quantity_buy_records_trade :
    (executeTrade (initState 0) "A" ⟨Action.buy, 5⟩ 10 0).trades
        = [⟨0, "A", "buy", 0, 10, 0⟩] ∧
      (executeTrade (initState 0) "A" ⟨Action.buy, 5⟩ 10 0).cash = 0 ∧
      hasPosition (executeTrade (initState 0) "A" ⟨Action.buy, 5⟩ 10 0).positions "A" = true ∧
      hasPosition (initState 0).positions "A" = false := by
  norm_num [executeTrade, initState, getPosition, setPosition, hasPosition, min_def]

/-- One tick-level event against the engine state: a valuation
(`_update_portfolio_value`) or one execution (`_execute_trade`). -/
inductive SimEvent where
  | mark (prices : List (String × ℚ))
  | trade (symbol : String) (signal : Signal) (price : ℚ) (timestamp : ℕ)

/-- Apply one event to the state. -/
def simStep (st : SimState) : SimEvent → SimState
  | .mark prices => updatePortfolioValue st prices
  | .trade sym sig price ts => executeTrade st sym sig price ts

/-- Run a sequence of events. -/
def runEvents (st : SimState) (es : List SimEvent) : SimState :=
  es.foldl simStep st

/-- The sequence of `total_value`s produced at the valuation events of a
run. -/
def markedValues : SimState → List SimEvent → List ℚ
  | _, [] => []
  | st, SimEvent.mark ps :: es =>
      markValue st ps :: markedValues (updatePortfolioValue st ps) es
  | st, SimEvent.trade sym sig price ts :: es =>
      markedValues (executeTrade st sym sig price ts) es

/-- The spec's drawdown statistic: the maximum over all ticks so far of
`(peak-so-far − total_value) / peak-so-far`, where peak-so-far is the
maximum of the starting peak (initial capital) and all total_values marked
up to that tick. -/
def specMaxDD : ℚ → List ℚ → ℚ
  | _, [] => 0
  | peak, tv :: tvs =>
      max ((max peak tv - tv) / max peak tv) (specMaxDD (max peak tv) tvs)

theorem specMaxDD_nonneg (tvs : List ℚ) :
    ∀ peak : ℚ, 0 < peak → 0 ≤ specMaxDD peak tvs := by
  induction tvs with
  | nil => intro peak _; simp [specMaxDD]
  | cons tv tvs ih =>
    intro peak h
    have hp : 0 < max peak tv := lt_of_lt_of_le h (le_max_left _ _)
    have hdd : 0 ≤ (max peak tv - tv) / max peak tv :=
      div_nonneg (sub_nonneg.mpr (le_max_right _ _)) hp.le
    exact le_trans hdd (le_max_left _ _)

theorem executeTrade_peak_max_dd (st : SimState) (sym : String) (sig : Signal)
    (price : ℚ) (ts : ℕ) :
    (executeTrade st sym sig price ts).peak = st.peak ∧
      (executeTrade st sym sig price ts).max_dd = st.max_dd := by
  unfold executeTrade
  by_cases h1 : sig.action = Action.buy ∧ 0 < sig.quantity
  · simp only [h1, if_true]
    by_cases h2 : min sig.quantity (st.cash / price) * price ≤ st.cash
    · simp [h2]
    · simp [h2]
  · simp only [h1, if_false]
    by_cases h3 : sig.action = Action.sell ∧ 0 < sig.quantity
    · simp only [h3, if_true]
      by_cases h4 : 0 < min sig.quantity (getPosition st.positions sym)
      · simp [h4]
      · simp [h4]
    · simp [h3]

theorem runEvents_max_dd (es : List SimEvent) :
    ∀ st : SimState, 0 < st.peak → 0 ≤ st.max_dd →
      (runEvents st es).max_dd = max st.max_dd (specMaxDD st.peak (markedValues st es)) := by
  induction es with
  | nil =>
    intro st _ hd
    simp [runEvents, markedValues, specMaxDD, max_eq_left hd]
  | cons e es ih =>
    intro st hp hd
    cases e with
    | mark ps =>
      have hpeak : 0 < (updatePortfolioValue st ps).peak := by
        rw [updatePortfolioValue_peak]
        exact lt_of_lt_of_le hp (le_max_left _ _)
      have hmd : 0 ≤ (updatePortfolioValue st ps).max_dd := by
        rw [updatePortfolioValue_max_dd]
        exact le_trans hd (le_max_left _ _)
      have hrec := ih (updatePortfolioValue st ps) hpeak hmd
      calc (runEvents st (SimEvent.mark ps :: es)).max_dd
          = (runEvents (updatePortfolioValue st ps) es).max_dd := rfl
        _ = max (updatePortfolioValue st ps).max_dd
              (specMaxDD (updatePortfolioValue st ps).peak
                (markedValues (updatePortfolioValue st ps) es)) := hrec
        _ = max st.max_dd (specMaxDD st.peak (markedValues st (SimEvent.mark ps :: es))) := by
            rw [updatePortfolioValue_max_dd, updatePortfolioValue_peak]
            rw [show markedValues st (SimEvent.mark ps :: es)
                  = markValue st ps :: markedValues (updatePortfolioValue st ps) es from rfl]
            rw [specMaxDD, max_assoc]
    | trade sym sig price ts =>
      have heq := executeTrade_peak_max_dd st sym sig price ts
      have hrec := ih (executeTrade st sym sig price ts)
        (heq.1 ▸ hp) (heq.2 ▸ hd)
      calc (runEvents st (SimEvent.trade sym sig price ts :: es)).max_dd
          = (runEvents (executeTrade st sym sig price ts) es).max_dd := rfl
        _ = max (executeTrade st sym sig price ts).max_dd
              (specMaxDD (executeTrade st sym sig price ts).peak
                (markedValues (executeTrade st sym sig price ts) es)) := hrec
        _ = max st.max_dd (specMaxDD st.peak (markedValues st (SimEvent.trade sym sig price ts :: es))) := by
            rw [heq.1, heq.2]
            rw [show markedValues st (SimEvent.trade sym sig price ts :: es)
                  = markedValues (executeTrade st sym sig price ts) es from rfl]

theorem simStep_max_dd_le (st : SimState) (e : SimEvent) :
    st.max_dd ≤ (simStep st e).max_dd := by
  cases e with
  | mark ps =>
    rw [show simStep st (SimEvent.mark ps) = updatePortfolioValue st ps from rfl,
      updatePortfolioValue_max_dd]
    exact le_max_left _ _
  | trade sym sig price ts =>
    rw [show simStep st (SimEvent.trade sym sig price ts)
          = executeTrade st sym sig price ts from rfl,
      (executeTrade_peak_max_dd st sym sig price ts).2]

theorem runEvents_max_dd_le (es : List SimEvent) :
    ∀ st : SimState, st.max_dd ≤ (runEvents st es).max_dd := by
  induction es with
  | nil => intro st; exact le_rfl
  | cons e es ih =>
    intro st
    exact le_trans (simStep_max_dd_le st e) (ih (simStep st e))

theorem runEvents_append (st : SimState) (a b : List SimEvent) :
    runEvents st (a ++ b) = runEvents (runEvents st a) b := by
  simp [runEvents]

/-- Claim C5: starting from `initial_capital > 0`, over any sequence of
valuation and execution events the retained `max_drawdown` equals, after
every valuation, the maximum over all ticks so far of
`(peak-so-far − total_value) / peak-so-far` with peak-so-far the maximum of
the initial capital and all marked total_values; and the statistic is
non-decreasing over the run (every prefix's value is `≤` the final
value). -/
theorem max_drawdown_matches_spec (C : ℚ) (hC : 0 < C) (es : List SimEvent) :
    (runEvents (initState C) es).max_dd = specMaxDD C (markedValues (initState C) es)
    ∧ ∀ n : ℕ, (runEvents (initState C) (es.take n)).max_dd
        ≤ (runEvents (initState C) es).max_dd := by
  constructor
  · have h := runEvents_max_dd es (initState C) hC le_rfl
    rw [h, show (initState C).max_dd = 0 from rfl, show (initState C).peak = C from rfl]
    exact max_eq_right (specMaxDD_nonneg _ C hC)
  · intro n
    conv_rhs => rw [← List.take_append_drop n es]
    rw [runEvents_append]
    exact runEvents_max_dd_le _ _

/-- Witness for `max_drawdown_matches_spec` at capital 100 with a single
valuation. -/
theorem max_drawdown_matches_spec_witness :
    (runEvents (initState 100) [SimEvent.mark [("A", 3)]]).max_dd
        = specMaxDD 100 (markedValues (initState 100) [SimEvent.mark [("A", 3)]]) ∧
      (runEvents (initState 100) (List.take 0 [SimEvent.mark [("A", 3)]])).max_dd
        ≤ (runEvents (initState 100) [SimEvent.mark [("A", 3)]]).max_dd :=
  ⟨(max_drawdown_matches_spec 100 (by norm_num) _).1,
   (max_drawdown_matches_spec 100 (by norm_num) _).2 0⟩

/-- The historical price data handed to the driver: symbol → ordered series
of (timestamp, closing price), the shape of `historical_data` in
`historical.py`. -/
abbrev HistData := List (String × List (ℕ × ℚ))

/-- Dict lookup `historical_data[symbol]` guarded by
`symbol in historical_data`. -/
def findSeries : HistData → String → Option (List (ℕ × ℚ))
  | [], _ => none
  | p :: ps, sym => if p.1 = sym then some p.2 else findSeries ps sym

/-- Series lookup `df.loc[date, 'close']` guarded by `date in df.index`. -/
def seriesAt : List (ℕ × ℚ) → ℕ → Option ℚ
  | [], _ => none
  | x :: xs, t => if x.1 = t then some x.2 else seriesAt xs t

/-- The closing price of `sym` at time `t`, when the symbol is known and
the timestamp is in its index. -/
def dataPrice (hd : HistData) (sym : String) (t : ℕ) : Option ℚ :=
  match findSeries hd sym with
  | none => none
  | some s => seriesAt s t

/-- Benchmark tracking state: the appended `benchmark_values` list and
`last_benchmark_date`. -/
structure BenchState where
  values : List ℚ
  lastDate : Option ℕ
deriving DecidableEq, Repr

/-- One symbol's contribution to a benchmark tick, from the loop body of
`_calculate_benchmark_value`: the symbol contributes
`(p_now - p_prev) / p_prev` when it has a price at the current date, a
previous benchmark date is recorded, the symbol has a price there, and
that previous price is positive; otherwise it is skipped. -/
def benchSymbolContribution (hd : HistData) (prevDate : Option ℕ) (t : ℕ)
    (sym : String) : Option ℚ :=
  match dataPrice hd sym t with
  | none => none
  | some pNow =>
    match prevDate with
    | none => none
    | some d =>
      match dataPrice hd sym d with
      | none => none
      | some pPrev =>
        if 0 < pPrev then some ((pNow - pPrev) / pPrev) else none

/-- The per-symbol simple returns accumulated by the loop of
`_calculate_benchmark_value` over `self.symbols`. -/
def benchReturns (symbols : List String) (hd : HistData) (prevDate : Option ℕ)
    (t : ℕ) : List ℚ :=
  symbols.filterMap (benchSymbolContribution hd prevDate t)

/-- `_calculate_benchmark_value`: on the first call (no recorded values)
record the date and return `initial_capital`; afterwards multiply the
previous value by one plus the average accumulated return when at least
one symbol was valid, else carry the previous value forward.  The returned
pair is (benchmark value, new `last_benchmark_date`); the caller appends
the value. -/
def calcBenchmarkValue (symbols : List String) (hd : HistData) (C : ℚ)
    (bs : BenchState) (t : ℕ) : ℚ × Option ℕ :=
  match bs.values.getLast? with
  | none => (C, some t)
  | some prev =>
    let rets := benchReturns symbols hd bs.lastDate t
    if 0 < rets.length then (prev * (1 + rets.sum / (rets.length : ℚ)), some t)
    else (prev, some t)

/-- One benchmark tick as performed by the driver loop: compute the value
and append it (`self.benchmark_values.append(benchmark_value)`). -/
def benchStep (symbols : List String) (hd : HistData) (C : ℚ)
    (bs : BenchState) (t : ℕ) : BenchState :=
  ⟨bs.values ++ [(calcBenchmarkValue symbols hd C bs t).1],
    (calcBenchmarkValue symbols hd C bs t).2⟩

/-- Feed the Benchmark Tracker a sequence of ticks from its reset state. -/
def benchRun (symbols : List String) (hd : HistData) (C : ℚ) (ticks : List ℕ) :
    BenchState :=
  ticks.foldl (benchStep symbols hd C) ⟨[], none⟩

/-- A constant price series: every symbol is priced `c` at every tick. -/
def constData (symbols : List String) (c : ℚ) (ticks : List ℕ) : HistData :=
  symbols.map (fun s => (s, ticks.map (fun t => (t, c))))

/-- Spec-side validity of a symbol for a benchmark tick: the symbol has a
(valid, i.e. positive-previous) price at both the current tick and the
previously recorded reference timestamp. -/
def hasValidData (hd : HistData) (prevDate : Option ℕ) (t : ℕ) (sym : String) : Bool :=
  match dataPrice hd sym t, prevDate with
  | some _, some d =>
    match dataPrice hd sym d with
    | some pPrev => decide (0 < pPrev)
    | none => false
  | _, _ => false

/-- Spec-side simple return of a symbol between the reference timestamp
and the current tick. -/
def symbolSimpleReturn (hd : HistData) (prevDate : Option ℕ) (t : ℕ) (sym : String) : ℚ :=
  ((dataPrice hd sym t).getD 0 -
      (match prevDate with | some d => (dataPrice hd sym d).getD 0 | none => 0)) /
    (match prevDate with | some d => (dataPrice hd sym d).getD 0 | none => 0)

/-- Spec-side return list: the simple returns of exactly those symbols with
valid data (symbols missing either price point are excluded, not treated as
zero return). -/
def specValidReturns (symbols : List String) (hd : HistData) (prevDate : Option ℕ)
    (t : ℕ) : List ℚ :=
  (symbols.filter (hasValidData hd prevDate t)).map (symbolSimpleReturn hd prevDate t)

/-- Spec-side next benchmark value: previous value × (1 + arithmetic mean
of the valid returns), carried forward unchanged when no symbol has valid
data. -/
def specBenchNext (prev : ℚ) (rets : List ℚ) : ℚ :=
  if 0 < rets.length then prev * (1 + rets.sum / (rets.length : ℚ)) else prev

theorem benchSymbolContribution_eq (hd : HistData) (prevDate : Option ℕ) (t : ℕ)
    (sym : String) :
    benchSymbolContribution hd prevDate t sym
      = if hasValidData hd prevDate t sym
        then some (symbolSimpleReturn hd prevDate t sym) else none := by
  unfold benchSymbolContribution hasValidData symbolSimpleReturn
  cases hNow : dataPrice hd sym t with
  | none => cases prevDate <;> simp
  | some pNow =>
    cases prevDate with
    | none => simp
    | some d =>
      cases hP : dataPrice hd sym d with
      | none => simp [hP]
      | some pPrev =>
        by_cases hpos : 0 < pPrev
        · simp [hP, hpos]
        · simp [hP, hpos]

theorem benchReturns_eq_spec (symbols : List String) (hd : HistData)
    (prevDate : Option ℕ) (t : ℕ) :
    benchReturns symbols hd prevDate t = specValidReturns symbols hd prevDate t := by
  unfold benchReturns specValidReturns
  induction symbols with
  | nil => rfl
  | cons sym symbols ih =>
    rw [List.filterMap_cons, List.filter_cons, benchSymbolContribution_eq]
    by_cases h : hasValidData hd prevDate t sym
    · simp [h, ih]
    · simp [h, ih]

theorem seriesAt_const (c : ℚ) (ts : List ℕ) (u : ℕ) (p : ℚ)
    (h : seriesAt (ts.map (fun t => (t, c))) u = some p) : p = c := by
  induction ts with
  | nil => simp [seriesAt] at h
  | cons t ts ih =>
    rw [List.map_cons] at h
    unfold seriesAt at h
    by_cases ht : t = u
    · rw [if_pos ht] at h
      exact (Option.some.inj h).symm
    · rw [if_neg ht] at h
      exact ih h

theorem findSeries_constData (symbols : List String) (c : ℚ) (ticks : List ℕ)
    (sym : String) (s : List (ℕ × ℚ))
    (h : findSeries (constData symbols c ticks) sym = some s) :
    s = ticks.map (fun t => (t, c)) := by
  induction symbols with
  | nil => simp [constData, findSeries] at h
  | cons a symbols ih =>
    unfold constData at h ih
    rw [List.map_cons] at h
    unfold findSeries at h
    by_cases ha : a = sym
    · rw [if_pos ha] at h
      exact (Option.some.inj h).symm
    · rw [if_neg ha] at h
      exact ih h

theorem dataPrice_constData (symbols : List String) (c : ℚ) (ticks : List ℕ)
    (sym : String) (u : ℕ) (p : ℚ)
    (h : dataPrice (constData symbols c ticks) sym u = some p) : p = c := by
  unfold dataPrice at h
  cases hf : findSeries (constData symbols c ticks) sym with
  | none => rw [hf] at h; cases h
  | some s =>
    rw [hf] at h
    rw [findSeries_constData symbols c ticks sym s hf] at h
    exact seriesAt_const c ticks u p h

theorem benchReturns_constData_zero (symbols symbols' : List String) (c : ℚ)
    (ticks : List ℕ) (prevDate : Option ℕ) (t : ℕ) :
    ∀ r ∈ benchReturns symbols' (constData symbols c ticks) prevDate t, r = 0 := by
  intro r hr
  unfold benchReturns at hr
  rcases List.mem_filterMap.mp hr with ⟨sym, _, hsym⟩
  unfold benchSymbolContribution at hsym
  cases hNow : dataPrice (constData symbols c ticks) sym t with
  | none => simp [hNow] at hsym
  | some pNow =>
    simp only [hNow] at hsym
    cases prevDate with
    | none => simp at hsym
    | some d =>
      cases hP : dataPrice (constData symbols c ticks) sym d with
      | none => simp [hP] at hsym
      | some pPrev =>
        simp only [hP] at hsym
        by_cases hpos : 0 < pPrev
        · rw [if_pos hpos] at hsym
          have h1 : pNow = c := dataPrice_constData symbols c ticks sym t pNow hNow
          have h2 : pPrev = c := dataPrice_constData symbols c ticks sym d pPrev hP
          rw [← Option.some.inj hsym, h1, h2, sub_self, zero_div]
        · rw [if_neg hpos] at hsym; cases hsym

theorem mem_of_getLast?_eq {l : List ℚ} {a : ℚ} (h : l.getLast? = some a) : a ∈ l := by
  rcases List.mem_getLast?_eq_getLast (by simpa [Option.mem_def] using h) with ⟨hne, heq⟩
  rw [heq]
  exact List.getLast_mem hne

theorem benchRun_const_values (symbols symbols' : List String) (c C : ℚ)
    (ticks allTicks : List ℕ) :
    ∀ bs : BenchState, (∀ v ∈ bs.values, v = C) →
      ∀ v ∈ (ticks.foldl (benchStep symbols' (constData symbols c allTicks) C) bs).values,
        v = C := by
  induction ticks with
  | nil => intro bs hbs v hv; exact hbs v hv
  | cons t ts ih =>
    intro bs hbs
    refine ih _ ?_
    intro v hv
    unfold benchStep at hv
    simp only [List.mem_append, List.mem_singleton] at hv
    rcases hv with hv | hv
    · exact hbs v hv
    · subst hv
      unfold calcBenchmarkValue
      cases hlast : bs.values.getLast? with
      | none => rfl
      | some prev =>
        have hprev : prev = C := hbs prev (mem_of_getLast?_eq hlast)
        have hzero : (benchReturns symbols' (constData symbols c allTicks) bs.lastDate t).sum
            = 0 :=
          List.sum_eq_zero (benchReturns_constData_zero symbols symbols' c allTicks _ t)
        dsimp only
        rw [hzero, zero_div, add_zero, mul_one, hprev]
        split <;> rfl

/-- Claim C6: for every benchmark tick after the first, the new benchmark
value equals the previous value × (1 + the arithmetic mean of the simple
returns `(p_now − p_prev)/p_prev` over exactly those symbols with valid
prices at both the current tick and the previously recorded reference
timestamp), carrying forward unchanged when no symbol has valid data; and
feeding a constant price series for all symbols across all ticks yields a
benchmark value sequence that stays exactly at `initial_capital`. -/
theorem benchmark_equal_weight_mean :
    (∀ (symbols : List String) (hd : HistData) (C : ℚ) (bs : BenchState) (t : ℕ)
        (prev : ℚ), bs.values.getLast? = some prev →
        (calcBenchmarkValue symbols hd C bs t).1
          = specBenchNext prev (specValidReturns symbols hd bs.lastDate t)) ∧
      ∀ (symbols : List String) (c C : ℚ) (ticks : List ℕ),
        ∀ v ∈ (benchRun symbols (constData symbols c ticks) C ticks).values, v = C := by
  constructor
  · intro symbols hd C bs t prev hlast
    unfold calcBenchmarkValue
    rw [hlast]
    dsimp only
    rw [benchReturns_eq_spec]
    unfold specBenchNext
    by_cases h : 0 < (specValidReturns symbols hd bs.lastDate t).length
    · rw [if_pos h, if_pos h]
    · rw [if_neg h, if_neg h]
  · intro symbols c C ticks v hv
    exact benchRun_const_values symbols symbols c C ticks ticks ⟨[], none⟩
      (by intro v hv; cases hv) v hv

/-- Witness for `benchmark_equal_weight_mean`: one tracked symbol moving
from price 10 to 11, previous benchmark value 1000, and a two-tick constant
run at price 7. -/
theorem benchmark_equal_weight_mean_witness :
    (calcBenchmarkValue ["A"] [("A", [(0, 10), (1, 11)])] 1000 ⟨[1000], some 0⟩ 1).1
        = specBenchNext 1000
            (specValidReturns ["A"] [("A", [(0, 10), (1, 11)])] (some 0) 1) ∧
      ∀ v ∈ (benchRun ["A"] (constData ["A"] 7 [0, 1]) 500 [0, 1]).values, v = 500 := by
  constructor
  · exact benchmark_equal_weight_mean.1 ["A"] [("A", [(0, 10), (1, 11)])] 1000
      ⟨[1000], some 0⟩ 1 1000 rfl
  · exact benchmark_equal_weight_mean.2 ["A"] 7 500 [0, 1]

/-- A pluggable strategy (`generate_signals`): given the tick timestamp and
the already-marked portfolio, return per-symbol signals, or raise
(`Except.error`).  The historical data the code also passes is fixed for
the whole run and may be captured inside the strategy value; the engine
treats the strategy as a black-box signal generator (spec §1). -/
def Strategy : Type := ℕ → SimState → Except String (List (String × Signal))

/-- `current_prices` of a tick: every symbol whose series has a bar at the
tick, with its closing price. -/
def pricesAt (hd : HistData) (t : ℕ) : List (String × ℚ) :=
  hd.filterMap (fun p => (seriesAt p.2 t).map (fun pr => (p.1, pr)))

/-- Execute the signal dict returned by the strategy: each signal is
executed only if its symbol is in `current_prices`. -/
def execSignals (st : SimState) (signals : List (String × Signal))
    (cp : List (String × ℚ)) (t : ℕ) : SimState :=
  signals.foldl (fun s q =>
    match priceOf cp q.1 with
    | some pr => executeTrade s q.1 q.2 pr t
    | none => s) st

/-- `_process_day`: collect current prices, mark the portfolio, ask the
strategy for signals, execute them.  There is no exception handler around
`generate_signals` here: a strategy error leaves the tick after the mark
and propagates (second component `false`). -/
def processDay (strat : Strategy) (hd : HistData) (st : SimState) (t : ℕ) :
    SimState × Bool :=
  let cp := pricesAt hd t
  let st1 := updatePortfolioValue st cp
  match strat t st1 with
  | Except.error _ => (st1, false)
  | Except.ok signals => (execSignals st1 signals cp t, true)

/-- A `portfolio_history` entry of the historical driver. -/
structure Entry where
  timestamp : ℕ
  total_value : ℚ
  cash : ℚ
  positions : List (String × ℚ)
  benchmark_value : ℚ
deriving DecidableEq, Repr

/-- Outcome of a historical run: `ok = false` models the run raising
(`ValueError` or a propagated strategy exception, i.e. a failure status);
the partial state and history accumulated so far remain queryable. -/
structure RunResult where
  ok : Bool
  state : SimState
  bench : BenchState
  history : List Entry
deriving DecidableEq, Repr

/-- The driver's while-loop over the tick list.  Each iteration processes
the tick at `d`, then — after the code has already advanced `current_date`
by one hour — computes the benchmark at `d + 1`, appends it to
`benchmark_values`, and appends a history entry stamped `d + 1` holding the
portfolio marked at `d` and the benchmark computed at `d + 1`. -/
def runTicks (strat : Strategy) (symbols : List String) (hd : HistData) (C : ℚ) :
    List ℕ → SimState → BenchState → List Entry → RunResult
  | [], st, bs, hist => ⟨true, st, bs, hist⟩
  | d :: ds, st, bs, hist =>
    match processDay strat hd st d with
    | (st1, false) => ⟨false, st1, bs, hist⟩
    | (st1, true) =>
      runTicks strat symbols hd C ds st1 (benchStep symbols hd C bs (d + 1))
        (hist ++ [⟨d + 1, st1.total_value, st1.cash, st1.positions,
          (calcBenchmarkValue symbols hd C bs (d + 1)).1⟩])

/-- `df.index.min()` of a series. -/
def minTs : List (ℕ × ℚ) → ℕ
  | [] => 0
  | x :: xs => (xs.map Prod.fst).foldl Nat.min x.1

/-- `df.index.max()` of a series. -/
def maxTs : List (ℕ × ℚ) → ℕ
  | [] => 0
  | x :: xs => (xs.map Prod.fst).foldl Nat.max x.1

/-- `min_date = max(df.index.min() for df in historical_data.values())`. -/
def overlapStart : HistData → ℕ
  | [] => 0
  | q :: qs => (qs.map (fun p => minTs p.2)).foldl Nat.max (minTs q.2)

/-- `max_date = min(df.index.max() for df in historical_data.values())`. -/
def overlapEnd : HistData → ℕ
  | [] => 0
  | q :: qs => (qs.map (fun p => maxTs p.2)).foldl Nat.min (maxTs q.2)

/-- The tick timestamps visited by `while current_date <= max_date` with an
hourly step, over the fetched data restricted to symbols with non-empty
series (the dict `historical_data` keeps only those). -/
def histTicks (fetched : HistData) : List ℕ :=
  let data := fetched.filter (fun p => !p.2.isEmpty)
  (List.range (overlapEnd data + 1 - overlapStart data)).map (· + overlapStart data)

/-- `run()` of the historical driver, after fetching: keep symbols with
non-empty data; if none remain, raise (`ValueError`, failure status) before
any tick executes; otherwise iterate the common hourly tick range from a
fresh portfolio and benchmark state. -/
def histRun (strat : Strategy) (symbols : List String) (C : ℚ) (fetched : HistData) :
    RunResult :=
  let data := fetched.filter (fun p => !p.2.isEmpty)
  if data.isEmpty then ⟨false, initState C, ⟨[], none⟩, []⟩
  else runTicks strat symbols data C (histTicks fetched) (initState C) ⟨[], none⟩ []

/-- The benchmark values produced, in order, by one `_calculate_benchmark_value`
call per tick of `ts` starting from state `bs`. -/
def benchTrace (symbols : List String) (hd : HistData) (C : ℚ) :
    BenchState → List ℕ → List ℚ
  | _, [] => []
  | bs, t :: ts =>
    (calcBenchmarkValue symbols hd C bs t).1 ::
      benchTrace symbols hd C (benchStep symbols hd C bs t) ts

/-- The benchmark value sequence obtained by valuing the Benchmark Tracker,
from its reset state, at exactly the timestamps `ts`. -/
def benchValuesRun (symbols : List String) (hd : HistData) (C : ℚ) (ts : List ℕ) :
    List ℚ :=
  (ts.foldl (benchStep symbols hd C) ⟨[], none⟩).values

theorem benchStep_fold_values (symbols : List String) (hd : HistData) (C : ℚ)
    (ts : List ℕ) :
    ∀ bs : BenchState, (ts.foldl (benchStep symbols hd C) bs).values
      = bs.values ++ benchTrace symbols hd C bs ts := by
  induction ts with
  | nil => intro bs; simp [benchTrace]
  | cons t ts ih =>
    intro bs
    rw [List.foldl_cons, ih, benchTrace]
    rw [show (benchStep symbols hd C bs t).values
          = bs.values ++ [(calcBenchmarkValue symbols hd C bs t).1] from rfl]
    simp

theorem runTicks_history (strat : Strategy) (symbols : List String) (hd : HistData)
    (C : ℚ) :
    ∀ (ticks : List ℕ) (st : SimState) (bs : BenchState) (hist : List Entry),
      (runTicks strat symbols hd C ticks st bs hist).ok = true →
      (runTicks strat symbols hd C ticks st bs hist).history.map Entry.benchmark_value
          = hist.map Entry.benchmark_value
            ++ benchTrace symbols hd C bs (ticks.map (· + 1))
        ∧ (runTicks strat symbols hd C ticks st bs hist).history.map Entry.timestamp
          = hist.map Entry.timestamp ++ ticks.map (· + 1) := by
  intro ticks
  induction ticks with
  | nil =>
    intro st bs hist _
    simp [runTicks, benchTrace]
  | cons d ds ih =>
    intro st bs hist hok
    rcases hpd : processDay strat hd st d with ⟨st1, b⟩
    cases b with
    | false =>
      rw [runTicks, hpd] at hok
      cases hok
    | true =>
      rw [runTicks, hpd] at hok ⊢
      have h := ih st1 (benchStep symbols hd C bs (d + 1))
        (hist ++ [⟨d + 1, st1.total_value, st1.cash, st1.positions,
          (calcBenchmarkValue symbols hd C bs (d + 1)).1⟩]) hok
      rw [List.map_cons, benchTrace]
      constructor
      · rw [h.1, List.map_append]
        simp
      · rw [h.2, List.map_append]
        simp

/-- Claim C7, counterexample.  One symbol priced 100, 110, 121 at hours
0, 1, 2 with a strategy that never signals: the benchmark values the code
appends to the three history entries are `[1000, 1100, 1100]` (computed at
hours 1, 2, 3), whereas the Benchmark Tracker valued at the timestamps at
which each entry's `total_value` was marked — the tick list hours 0, 1, 2 —
gives `[1000, 1100, 1210]`.  The appended benchmark is therefore not
computed at the mark timestamps. -/
theorem benchmark_lockstep_refuted :
    (histRun (fun _ _ => Except.ok []) ["A"] 1000
        [("A", [(0, 100), (1, 110), (2, 121)])]).history.map Entry.benchmark_value
        = [1000, 1100, 1100] ∧
      benchValuesRun ["A"] [("A", [(0, 100), (1, 110), (2, 121)])] 1000
          (histTicks [("A", [(0, 100), (1, 110), (2, 121)])])
        = [1000, 1100, 1210] ∧
      ¬ (histRun (fun _ _ => Except.ok []) ["A"] 1000
          [("A", [(0, 100), (1, 110), (2, 121)])]).history.map Entry.benchmark_value
        = benchValuesRun ["A"] [("A", [(0, 100), (1, 110), (2, 121)])] 1000
            (histTicks [("A", [(0, 100), (1, 110), (2, 121)])]) := by
  have h1 : (histRun (fun _ _ => Except.ok []) ["A"] 1000
      [("A", [(0, 100), (1, 110), (2, 121)])]).history.map Entry.benchmark_value
      = [1000, 1100, 1100] := by
    norm_num [histRun, histTicks, overlapStart, overlapEnd, minTs, maxTs,
      List.range_succ, runTicks, processDay, pricesAt, execSignals,
      updatePortfolioValue, markValue, priceOf, dataPrice, findSeries, seriesAt,
      benchStep, calcBenchmarkValue, benchReturns, benchSymbolContribution,
      List.filterMap_cons, List.filterMap_nil, initState]
  have h2 : benchValuesRun ["A"] [("A", [(0, 100), (1, 110), (2, 121)])] 1000
      (histTicks [("A", [(0, 100), (1, 110), (2, 121)])]) = [1000, 1100, 1210] := by
    norm_num [benchValuesRun, histTicks, overlapStart, overlapEnd, minTs, maxTs,
      List.range_succ, benchStep, calcBenchmarkValue, benchReturns,
      benchSymbolContribution, dataPrice, findSeries, seriesAt,
      List.filterMap_cons, List.filterMap_nil]
  refine ⟨h1, h2, ?_⟩
  intro h
  rw [h1, h2] at h
  norm_num at h

/-- Claim C7 (amended): in any non-failing historical run, the benchmark
value appended to each history entry is the Benchmark Tracker valued at the
entry's recorded timestamp, which is the mark timestamp of that entry's
`total_value` plus one hour — the loop advances `current_date` before the
benchmark valuation and the history append, so benchmark and portfolio
valuation are shifted by one tick, not in lock-step. -/
theorem benchmark_valued_one_tick_later (strat : Strategy) (symbols : List String)
    (C : ℚ) (fetched : HistData)
    (hok : (histRun strat symbols C fetched).ok = true) :
    (histRun strat symbols C fetched).history.map Entry.benchmark_value
        = benchValuesRun symbols (fetched.filter (fun p => !p.2.isEmpty)) C
            ((histTicks fetched).map (· + 1))
      ∧ (histRun strat symbols C fetched).history.map Entry.timestamp
        = (histTicks fetched).map (· + 1) := by
  unfold histRun at hok ⊢
  by_cases hempty : (List.filter (fun p => !p.2.isEmpty) fetched).isEmpty
  · rw [if_pos hempty] at hok
    cases hok
  · rw [if_neg hempty] at hok ⊢
    have h := runTicks_history strat symbols
      (List.filter (fun p => !p.2.isEmpty) fetched) C (histTicks fetched)
      (initState C) ⟨[], none⟩ [] hok
    rw [benchValuesRun, benchStep_fold_values]
    exact ⟨by simpa using h.1, by simpa using h.2⟩

/-- Witness for `benchmark_valued_one_tick_later` on the three-hour
single-symbol run. -/
theorem benchmark_valued_one_tick_later_witness :
    (histRun (fun _ _ => Except.ok []) ["A"] 1000
        [("A", [(0, 100), (1, 110), (2, 121)])]).history.map Entry.benchmark_value
        = benchValuesRun ["A"]
            (List.filter (fun p => !p.2.isEmpty) [("A", [(0, 100), (1, 110), (2, 121)])])
            1000 ((histTicks [("A", [(0, 100), (1, 110), (2, 121)])]).map (· + 1))
      ∧ (histRun (fun _ _ => Except.ok []) ["A"] 1000
          [("A", [(0, 100), (1, 110), (2, 121)])]).history.map Entry.timestamp
        = (histTicks [("A", [(0, 100), (1, 110), (2, 121)])]).map (· + 1) :=
  benchmark_valued_one_tick_later _ _ _ _ (by decide)

/-- A `portfolio_history` entry of the live driver (no benchmark there). -/
structure RtEntry where
  timestamp : ℕ
  total_value : ℚ
  cash : ℚ
  positions : List (String × ℚ)
deriving DecidableEq, Repr

/-- Python `l[-1000:]` applied once the length bound is exceeded: keep the
most recent 1000 elements. -/
def keepLast1000 {α : Type} (l : List α) : List α :=
  if 1000 < l.length then l.drop (l.length - 1000) else l

/-- State owned by the live driver: the portfolio/ledger state plus the two
bounded rolling histories. -/
structure RtState where
  sim : SimState
  portfolio_history : List RtEntry
  price_history : List (String × List (ℕ × ℚ))

/-- The price-history update of `_process_realtime_update`: for every
symbol of the update that is tracked, append `(timestamp, price)` and keep
the last 1000 points. -/
def rtUpdatePriceHistory (ph : List (String × List (ℕ × ℚ)))
    (prices : List (String × ℚ)) (t : ℕ) : List (String × List (ℕ × ℚ)) :=
  prices.foldl (fun acc p =>
    acc.map (fun q => if q.1 = p.1 then (q.1, keepLast1000 (q.2 ++ [(t, p.2)])) else q)) ph

/-- `_generate_signals` of the live driver: a strategy exception is caught
and treated as an empty signal dict. -/
def rtGenerateSignals (strat : Strategy) (t : ℕ) (st : SimState) :
    List (String × Signal) :=
  match strat t st with
  | Except.error _ => []
  | Except.ok s => s

/-- `_process_realtime_update`: extend the rolling price history, mark the
portfolio, generate signals (strategy exceptions caught as no signals),
execute the signals at the update's prices, and append a bounded
portfolio-history snapshot.  The indicator-cache refresh belongs to the
excluded data layer (spec §1) and only feeds the strategy's input, which is
already a black box here. -/
def rtProcessUpdate (strat : Strategy) (rt : RtState)
    (prices : List (String × ℚ)) (t : ℕ) : RtState :=
  let ph := rtUpdatePriceHistory rt.price_history prices t
  let sim1 := updatePortfolioValue rt.sim prices
  let signals := rtGenerateSignals strat t sim1
  let sim2 := execSignals sim1 signals prices t
  ⟨sim2,
    keepLast1000 (rt.portfolio_history ++ [⟨t, sim2.total_value, sim2.cash, sim2.positions⟩]),
    ph⟩

/-- Claim C8, counterexample for the scheduled-replay driver.  One symbol
with two hourly bars and a strategy that raises at every tick: the run
aborts at the first tick with a failure (`ok = false`) and zero history
entries, while the same data with a never-signalling strategy completes
both ticks.  A strategy exception therefore does abort the replay run
rather than being treated as "no signals this tick". -/
theorem strategy_error_aborts_replay :
    (histRun (fun _ _ => Except.error "strategy failure") ["A"] 100
        [("A", [(0, 50), (1, 50)])]).ok = false ∧
      (histRun (fun _ _ => Except.error "strategy failure") ["A"] 100
          [("A", [(0, 50), (1, 50)])]).history.length = 0 ∧
      (histRun (fun _ _ => Except.ok []) ["A"] 100
          [("A", [(0, 50), (1, 50)])]).history.length = 2 := by
  refine ⟨?_, ?_, ?_⟩ <;>
    norm_num [histRun, histTicks, overlapStart, overlapEnd, minTs, maxTs,
      List.range_succ, runTicks, processDay, pricesAt, execSignals,
      updatePortfolioValue, markValue, priceOf, dataPrice, findSeries, seriesAt,
      benchStep, calcBenchmarkValue, benchReturns, benchSymbolContribution,
      List.filterMap_cons, List.filterMap_nil, initState]

/-- Claim C8 (amended): in the live/periodic driver a strategy exception at
an update is treated as "no signals" and the update is processed to
completion exactly as with a strategy returning no signals; in the
scheduled-replay driver a strategy exception at a tick aborts the run at
that tick with a failure status, keeping the portfolio as marked at that
tick and the history accumulated so far. -/
theorem strategy_error_recovery_split :
    (∀ (strat : Strategy) (rt : RtState) (prices : List (String × ℚ)) (t : ℕ)
        (e : String), strat t (updatePortfolioValue rt.sim prices) = Except.error e →
        rtProcessUpdate strat rt prices t
          = rtProcessUpdate (fun _ _ => Except.ok []) rt prices t) ∧
      ∀ (strat : Strategy) (symbols : List String) (hd : HistData) (C : ℚ) (d : ℕ)
        (ds : List ℕ) (st : SimState) (bs : BenchState) (hist : List Entry)
        (e : String), strat d (updatePortfolioValue st (pricesAt hd d)) = Except.error e →
        runTicks strat symbols hd C (d :: ds) st bs hist
          = ⟨false, updatePortfolioValue st (pricesAt hd d), bs, hist⟩ := by
  constructor
  · intro strat rt prices t e h
    unfold rtProcessUpdate rtGenerateSignals
    dsimp only
    rw [h]
  · intro strat symbols hd C d ds st bs hist e h
    rw [runTicks, show processDay strat hd st d
        = (updatePortfolioValue st (pricesAt hd d), false) by
      unfold processDay
      dsimp only
      rw [h]]

/-- Witness for `strategy_error_recovery_split`: a raising strategy on a
fresh live state with one price, and on a one-tick replay. -/
theorem strategy_error_recovery_split_witness :
    rtProcessUpdate (fun _ _ => Except.error "boom") ⟨initState 100, [], []⟩
        [("A", 2)] 0
        = rtProcessUpdate (fun _ _ => Except.ok []) ⟨initState 100, [], []⟩
          [("A", 2)] 0 ∧
      runTicks (fun _ _ => Except.error "boom") ["A"] [("A", [(0, 2)])] 100 [0]
          (initState 100) ⟨[], none⟩ []
        = ⟨false, updatePortfolioValue (initState 100) (pricesAt [("A", [(0, 2)])] 0),
            ⟨[], none⟩, []⟩ :=
  ⟨strategy_error_recovery_split.1 _ _ _ _ "boom" rfl,
   strategy_error_recovery_split.2 _ _ _ _ 0 [] _ _ _ "boom" rfl⟩

/-- Spec-side "no overlapping data across the requested symbols": either no
symbol has any data, or the common range (max of the per-symbol earliest
timestamps up to min of the per-symbol latest timestamps) is empty. -/
def noOverlappingData (fetched : HistData) : Bool :=
  (fetched.filter (fun p => !p.2.isEmpty)).isEmpty ||
    decide (overlapEnd (fetched.filter (fun p => !p.2.isEmpty))
      < overlapStart (fetched.filter (fun p => !p.2.isEmpty)))

/-- Claim C9, counterexample.  Two symbols with data at disjoint hours
(0 and 5): there is no overlapping data, yet the run does not report a
failure — it completes with `ok = true`, zero ticks and an empty history.
Only the all-symbols-empty case produces the claimed fatal failure. -/
theorem disjoint_ranges_not_fatal :
    noOverlappingData [("A", [(0, 1)]), ("B", [(5, 1)])] = true ∧
      (histRun (fun _ _ => Except.ok []) ["A", "B"] 100
          [("A", [(0, 1)]), ("B", [(5, 1)])]).ok = true ∧
      (histRun (fun _ _ => Except.ok []) ["A", "B"] 100
          [("A", [(0, 1)]), ("B", [(5, 1)])]).history = [] := by
  refine ⟨by decide, ?_, ?_⟩ <;>
    norm_num [histRun, histTicks, overlapStart, overlapEnd, minTs, maxTs,
      runTicks, noOverlappingData, initState]

/-- Claim C9 (amended): the scheduled-replay driver reports a fatal failure
before any tick executes — leaving the portfolio at its initial state and
no trade or history entry — exactly when no requested symbol has any data;
when symbols have data whose ranges do not overlap, the run instead
completes without failure, executing zero ticks, with the portfolio
untouched and no trade or history entry. -/
theorem data_failure_only_when_all_empty (strat : Strategy) (symbols : List String)
    (C : ℚ) (fetched : HistData) :
    ((List.filter (fun p => !p.2.isEmpty) fetched).isEmpty = true →
        histRun strat symbols C fetched = ⟨false, initState C, ⟨[], none⟩, []⟩) ∧
      ((List.filter (fun p => !p.2.isEmpty) fetched).isEmpty = false →
        overlapEnd (List.filter (fun p => !p.2.isEmpty) fetched)
            < overlapStart (List.filter (fun p => !p.2.isEmpty) fetched) →
        histRun strat symbols C fetched = ⟨true, initState C, ⟨[], none⟩, []⟩) := by
  constructor
  · intro h
    unfold histRun
    rw [if_pos h]
  · intro h hlt
    have h0 : overlapEnd (List.filter (fun p => !p.2.isEmpty) fetched) + 1
        - overlapStart (List.filter (fun p => !p.2.isEmpty) fetched) = 0 :=
      Nat.sub_eq_zero_of_le hlt
    have hticks : histTicks fetched = [] := by
      unfold histTicks
      dsimp only
      rw [h0]
      rfl
    unfold histRun
    rw [if_neg (by simp [h]), hticks]
    rfl

/-- Witness for `data_failure_only_when_all_empty`: one symbol with an
empty series (fatal failure), and two symbols with disjoint hours
(successful zero-tick run). -/
theorem data_failure_only_when_all_empty_witness :
    histRun (fun _ _ => Except.ok []) ["A"] 100 [("A", [])]
        = ⟨false, initState 100, ⟨[], none⟩, []⟩ ∧
      histRun (fun _ _ => Except.ok []) ["A", "B"] 100
          [("A", [(0, 1)]), ("B", [(5, 1)])]
        = ⟨true, initState 100, ⟨[], none⟩, []⟩ :=
  ⟨(data_failure_only_when_all_empty _ _ _ _).1 (by decide),
   (data_failure_only_when_all_empty _ _ _ _).2 (by decide) (by decide)⟩

end BlitzSim
